import Mathlib

/-!
Verification development for the AML repository (katjahager/AML).

The repository has two source files:
  * `src/refine_lm/model_BERT.py` — `CustomBERTModel`, a wrapper around a
    masked-language model that re-scores the top-k logits at masked positions
    through a small learned linear layer followed by a softmax, scattering the
    results back into a zero tensor of the full vocabulary shape;
  * `src/inference.py` — an argparse driver that runs StereoSet-style
    intrasentence / intersentence inference and writes JSON result files.

The embedding below models tensors as nested lists over an arbitrary linearly
ordered field `α`, so every definition is executable (and can be evaluated at
`α = ℚ`); the exponential inside `Tensor.softmax` is passed as an explicit
function parameter `e`, instantiated with `Real.exp` (at `α = ℝ`) in the
theorems that need its analytic properties.
-/

namespace Spec2Proof

namespace RefineLM

variable {α : Type*} [LinearOrderedField α]

/-- One row of `torch.zeros_like(output)`: `n` zeros
(`model_BERT.py`, line 40: `inputs = torch.zeros_like(output)`). -/
def zeros (n : ℕ) : List α :=
  List.replicate n 0

/-- Inner product `Σ_i w_i * v_i` (the contraction performed by
`nn.Linear`'s matrix multiply; `zip` truncates to the shorter list, and the
shape hypotheses of the theorems make both lengths equal). -/
def dot (w v : List α) : α :=
  ((w.zip v).map (fun p => p.1 * p.2)).sum

/-- `nn.Linear` with weight matrix `W` and bias `b` applied to a vector `v`:
`out_j = Σ_i W_j_i * v_i + b_j` (`model_BERT.py`, line 20:
`self.out = nn.Linear(self.topk, self.topk)`, applied at line 59). -/
def linear (W : List (List α)) (b : List α) (v : List α) : List α :=
  (W.zip b).map (fun rb => dot rb.1 v + rb.2)

/-- The all-ones `k × k` weight matrix produced by
`nn.init.ones_(self.out.weight)` (`model_BERT.py`, line 21). -/
def onesMatrix (k : ℕ) : List (List α) :=
  List.replicate k (List.replicate k 1)

/-- `Tensor.softmax(dim=-1)` on a 1-D tensor: `x_j ↦ e x_j / Σ_i e x_i`
(`model_BERT.py`, line 61: `layer_output = output_values.softmax(dim=-1)`).
The exponential is abstracted as the parameter `e` so that the definition
stays executable over `ℚ`; the analytic theorems instantiate `e := Real.exp`. -/
def softmax (e : α → α) (v : List α) : List α :=
  v.map (fun x => e x / ((v.map e).sum))

/-- The order `torch.topk` sorts by: larger values first, ties broken towards
the smaller index. -/
def topkRel (p q : α × ℕ) : Prop :=
  q.1 < p.1 ∨ (p.1 = q.1 ∧ p.2 ≤ q.2)

instance topkRelDecidable : DecidableRel (@topkRel α _) := fun p q => by
  unfold topkRel
  exact inferInstance

/-- The entries of `v` paired with their positions, sorted as `torch.topk`
sorts them (descending value, ties towards the smaller index). -/
def sortedPairs (v : List α) : List (α × ℕ) :=
  List.insertionSort topkRel (v.zip (List.range v.length))

/-- `values` component of `torch.Tensor.topk(k)` on a 1-D tensor `v`
(`model_BERT.py`, line 55: `values, indices = logits.topk(self.topk)`). -/
def topkValues (k : ℕ) (v : List α) : List α :=
  ((sortedPairs v).take k).map Prod.fst

/-- `indices` component of `torch.Tensor.topk(k)` on a 1-D tensor `v`. -/
def topkIndices (k : ℕ) (v : List α) : List ℕ :=
  ((sortedPairs v).take k).map Prod.snd

/-- Sequential element assignment
`for k in range(indices.shape[-1]): inputs[i, j, indices[:,k]] = layer_output[:,k]`
(`model_BERT.py`, lines 64-66) restricted to one masked row: each pair
`(index, value)` is written into `row` in order. -/
def scatter (row : List α) (ps : List (ℕ × α)) : List α :=
  ps.foldl (fun r p => r.set p.1 p.2) row

/-- The complete re-scoring of one masked row of logits (`model_BERT.py`,
lines 55-66): top-k of the raw logits, the learned linear layer, softmax, and
the scatter of the softmax values back at the top-k vocabulary indices of a
zero row of the full vocabulary size. -/
def rescoreRow (e : α → α) (W : List (List α)) (b : List α) (k : ℕ)
    (row : List α) : List α :=
  scatter (zeros row.length)
    ((topkIndices k row).zip (softmax e (linear W b (topkValues k row))))

/-- One sentence of `CustomBERTModel.forward` (`model_BERT.py`, lines 44-66):
positions whose input id equals the tokenizer's mask token id are re-scored
with `rescoreRow`, all other positions keep their zero row from
`torch.zeros_like(output)`. -/
def forwardSentence (e : α → α) (W : List (List α)) (b : List α)
    (k maskId : ℕ) (ids : List ℕ) (rows : List (List α)) : List (List α) :=
  (ids.zip rows).map
    (fun pr => if pr.1 = maskId then rescoreRow e W b k pr.2 else zeros pr.2.length)

/-- `CustomBERTModel.forward` (`model_BERT.py`, lines 33-67). `bert` is the
underlying masked-language model `self.bert` (third-party, abstracted as a
function from the batch of input ids to the batch of logit tensors), `W`/`b`
the weight and bias of `self.out`, `k` is `self.topk` and `maskId` the
tokenizer's `mask_token_id`.  `attention_mask` and `token_type_ids` are
accepted, as in the source, and never read.  The python loop runs
`for i in range(len(output))` and indexes `input_ids[i]`; the `zip` below
agrees with it whenever the two batches have the same length, which the shape
hypotheses of the theorems require. -/
def forward (e : α → α) (W : List (List α)) (b : List α) (k maskId : ℕ)
    (bert : List (List ℕ) → List (List (List α)))
    (input_ids attention_mask token_type_ids : List (List ℕ)) :
    List (List (List α)) :=
  (input_ids.zip (bert input_ids)).map
    (fun p => forwardSentence e W b k maskId p.1 p.2)

end RefineLM

namespace Inference

/-- The namespace of command-line arguments `parse_args()` returns
(`inference.py`, lines 15-127).  Options whose python type is `int` or
`float` (`--batch-size`, `--tiny-eval-frac`, `--softmax-temperature`) keep
their raw string value here: their numeric conversion plays no part in any
claim. -/
structure InfArgs where
  top_level_dir : String
  intrasentence_model : String
  intersentence_model : String
  pretrained_model_name : String
  eraser_path_list : Option (List String)
  eraser_before_lang_adapt : Bool
  ckpt_path : Option String
  intrasentence_data_path : Option String
  intersentence_data_path : Option String
  batch_size : String
  tiny_eval_frac : Option String
  softmax_temperature : String
  output_dir : Option String
  logging_dir : Option String
  skip_intrasentence : Bool
  skip_intersentence : Bool
  experiment_id : Option String
deriving DecidableEq, Repr

/-- The parser's defaults (each `default=` in `parse_args`).  The default of
`--top-level-dir` is the repository root computed from `__file__`; the
filesystem value is modelled as the abstract path `"TLD"`.  Note that
`--skip-intersentence` is declared with `action="store_true"` and
`default=True` (`inference.py`, lines 119-124), so it parses to `true`
whether or not the flag is given. -/
def defaultArgs : InfArgs :=
  ⟨"TLD", "BertForMLM", "BertForNSP", "bert-base-uncased", none, false, none,
    none, none, "16", none, "1.0", none, none, false, true, none⟩

/-- `choices` of `--intrasentence-model` (`inference.py`, lines 23-32). -/
def mlmChoices : List String := ["BertForMLM", "SwissBertForMLM"]

/-- `choices` of `--intersentence-model` (`inference.py`, lines 33-42). -/
def nspChoices : List String := ["BertForNSP", "SwissBertForNSP"]

/-- `choices` of `--pretrained-model-name` (`inference.py`, lines 43-49). -/
def pretrainedChoices : List String := ["bert-base-uncased", "ZurichNLP/swissbert-xlm-vocab"]

/-- Whether a token looks like an option (it starts with `--`): argparse
treats such a token as an option and refuses to consume it as the value of
another option.  Stated on the string's character list, which is what
`startswith` inspects. -/
def isOpt (s : String) : Bool :=
  match s.data with
  | '-' :: '-' :: _ => true
  | _ => false

/-- The values of an `nargs` list option split off the remaining argv: the
longest prefix of non-option tokens, and the rest. -/
def splitValues : List String → List String × List String
  | [] => ([], [])
  | s :: rest =>
    if isOpt s then ([], s :: rest)
    else
      let vr := splitValues rest
      (s :: vr.1, vr.2)

/-- An option declared with a plain (string-typed) value: consume one
non-option token and update the namespace with it, or fail when the value is
missing or looks like an option. -/
def stepValue (upd : InfArgs → String → InfArgs) :
    List String → InfArgs → Option (List String × InfArgs)
  | [], _ => none
  | v :: rest2, a => if isOpt v then none else some (rest2, upd a v)

/-- An option declared with `choices`: consume one token and update the
namespace with it when it is one of the choices, fail otherwise. -/
def stepChoice (cs : List String) (upd : InfArgs → String → InfArgs) :
    List String → InfArgs → Option (List String × InfArgs)
  | [], _ => none
  | v :: rest2, a => if v ∈ cs then some (rest2, upd a v) else none

/-- An option declared with `action="store_true"`: consume no value. -/
def stepFlag (upd : InfArgs → InfArgs) (rest : List String) (a : InfArgs) :
    Option (List String × InfArgs) :=
  some (rest, upd a)

/-- The value `utils.customAction` stores for `--eraser-path-list`: the given
values, or its `const` `['default_path']` when no values are given. -/
def eraserConst (vals : List String) : List String :=
  if vals = [] then ["default_path"] else vals

/-- `--eraser-path-list` (`inference.py`, lines 50-58), declared with
`nargs='*'`, `action=utils.customAction` and `const=['default_path']`.
`Modelled from the spec:` `utils.customAction` lives in `src/utils`, which is
not among the repository's two source files; it is modelled as storing the
given values, or the `const` `['default_path']` when the option is given with
no values — the behaviour the spec's "optionally with concept-eraser
debiasing modules applied" and the driver's later comparison against
`['default_path']` (line 151) presuppose. -/
def stepEraserPaths (rest : List String) (a : InfArgs) :
    Option (List String × InfArgs) :=
  let vr := splitValues rest
  some (vr.2, {a with eraser_path_list := some (eraserConst vr.1)})

/-- `--tiny-eval-frac` (`inference.py`, lines 92-97), declared with
`nargs='?'` and `const=0.1`: consume one non-option value if present, else
store the `const`. -/
def stepTinyEvalFrac : List String → InfArgs → Option (List String × InfArgs)
  | [], a => some ([], {a with tiny_eval_frac := some "0.1"})
  | v :: rest2, a =>
    if isOpt v then some (v :: rest2, {a with tiny_eval_frac := some "0.1"})
    else some (rest2, {a with tiny_eval_frac := some v})

/-- `setattr` for `--top-level-dir`. -/
def setTopLevelDir (a : InfArgs) (v : String) : InfArgs := {a with top_level_dir := v}

/-- `setattr` for `--intrasentence-model`. -/
def setIntrasentenceModel (a : InfArgs) (v : String) : InfArgs :=
  {a with intrasentence_model := v}

/-- `setattr` for `--intersentence-model`. -/
def setIntersentenceModel (a : InfArgs) (v : String) : InfArgs :=
  {a with intersentence_model := v}

/-- `setattr` for `--pretrained-model-name`. -/
def setPretrainedModelName (a : InfArgs) (v : String) : InfArgs :=
  {a with pretrained_model_name := v}

/-- `setattr` for `--eraser-before-lang-adapt` (`store_true`). -/
def setEraserBeforeLangAdapt (a : InfArgs) : InfArgs :=
  {a with eraser_before_lang_adapt := true}

/-- `setattr` for `--ckpt-path`. -/
def setCkptPath (a : InfArgs) (v : String) : InfArgs := {a with ckpt_path := some v}

/-- `setattr` for `--intrasentence-data-path`. -/
def setIntrasentenceDataPath (a : InfArgs) (v : String) : InfArgs :=
  {a with intrasentence_data_path := some v}

/-- `setattr` for `--intersentence-data-path`. -/
def setIntersentenceDataPath (a : InfArgs) (v : String) : InfArgs :=
  {a with intersentence_data_path := some v}

/-- `setattr` for `--batch-size` (raw value kept as a string). -/
def setBatchSize (a : InfArgs) (v : String) : InfArgs := {a with batch_size := v}

/-- `setattr` for `--softmax-temperature` (raw value kept as a string). -/
def setSoftmaxTemperature (a : InfArgs) (v : String) : InfArgs :=
  {a with softmax_temperature := v}

/-- `setattr` for `--output-dir`. -/
def setOutputDir (a : InfArgs) (v : String) : InfArgs := {a with output_dir := some v}

/-- `setattr` for `--logging-dir`. -/
def setLoggingDir (a : InfArgs) (v : String) : InfArgs := {a with logging_dir := some v}

/-- `setattr` for `--skip-intrasentence` (`store_true`). -/
def setSkipIntrasentence (a : InfArgs) : InfArgs := {a with skip_intrasentence := true}

/-- `setattr` for `--skip-intersentence` (`store_true`). -/
def setSkipIntersentence (a : InfArgs) : InfArgs := {a with skip_intersentence := true}

/-- `setattr` for `--experiment-id`. -/
def setExperimentId (a : InfArgs) (v : String) : InfArgs := {a with experiment_id := some v}

/-- One step of `argparse`: consume one option of `parse_args()`
(`inference.py`, lines 15-127) together with its values from the front of the
argv, returning the remaining argv and the updated namespace, or `none` on a
parse error (unknown option, missing value, or a value outside `choices`). -/
def parseStep : List String → InfArgs → Option (List String × InfArgs)
  | [], _ => none
  | tok :: rest, a =>
    if tok = "--eraser-path-list" then stepEraserPaths rest a
    else if tok = "--top-level-dir" then stepValue setTopLevelDir rest a
    else if tok = "--intrasentence-model" then
      stepChoice mlmChoices setIntrasentenceModel rest a
    else if tok = "--intersentence-model" then
      stepChoice nspChoices setIntersentenceModel rest a
    else if tok = "--pretrained-model-name" then
      stepChoice pretrainedChoices setPretrainedModelName rest a
    else if tok = "--eraser-before-lang-adapt" then
      stepFlag setEraserBeforeLangAdapt rest a
    else if tok = "--ckpt-path" then stepValue setCkptPath rest a
    else if tok = "--intrasentence-data-path" then
      stepValue setIntrasentenceDataPath rest a
    else if tok = "--intersentence-data-path" then
      stepValue setIntersentenceDataPath rest a
    else if tok = "--batch-size" then stepValue setBatchSize rest a
    else if tok = "--tiny-eval-frac" then stepTinyEvalFrac rest a
    else if tok = "--softmax-temperature" then stepValue setSoftmaxTemperature rest a
    else if tok = "--output-dir" then stepValue setOutputDir rest a
    else if tok = "--logging-dir" then stepValue setLoggingDir rest a
    else if tok = "--skip-intrasentence" then stepFlag setSkipIntrasentence rest a
    else if tok = "--skip-intersentence" then stepFlag setSkipIntersentence rest a
    else if tok = "--experiment-id" then stepValue setExperimentId rest a
    else none

/-- `argparse`'s main loop over the argv, one option per step; `fuel` bounds
the recursion (every step consumes at least the option token, so
`argv.length + 1` is always enough). -/
def parseArgsFrom : ℕ → List String → InfArgs → Option InfArgs
  | 0, _, _ => none
  | _ + 1, [], a => some a
  | fuel + 1, tok :: rest, a =>
    match parseStep (tok :: rest) a with
    | none => none
    | some p => parseArgsFrom fuel p.1 p.2

/-- `parse_args()` (`inference.py`, lines 15-127) on an argv. -/
def parseArgs (argv : List String) : Option InfArgs :=
  parseArgsFrom (argv.length + 1) argv defaultArgs

/-- Python truthiness of an optional string (`None` and `""` are falsy). -/
def truthyStr : Option String → Bool
  | none => false
  | some s => !(s = "")

/-- Python truthiness of an optional list (`None` and `[]` are falsy). -/
def truthyList : Option (List String) → Bool
  | none => false
  | some l => !(l = [])

/-- Python `a or b` on an optional string and a string
(`args.ckpt_path or args.pretrained_model_name`, `inference.py`,
lines 164/180). -/
def orStr : Option String → String → String
  | none, b => b
  | some s, b => if s = "" then b else s

/-- `path.split("/")[-1].split("_")[-1].split(".")[0]` (`inference.py`,
lines 163/179): the language tag read off a data-file name. -/
def langOf (path : String) : String :=
  (((((path.splitOn "/").getLastD "").splitOn "_").getLastD "").splitOn ".").headD ""

/-- The resolved intrasentence data path (`inference.py`, lines 135-138). -/
def dataPathIntra (a : InfArgs) : String :=
  a.intrasentence_data_path.getD (a.top_level_dir ++ "/data/df_intrasentence_en.pkl")

/-- The resolved intersentence data path (`inference.py`, lines 139-142). -/
def dataPathInter (a : InfArgs) : String :=
  a.intersentence_data_path.getD (a.top_level_dir ++ "/data/df_intersentence_en.pkl")

/-- The resolved output directory (`inference.py`, lines 143-146). -/
def outputDir (a : InfArgs) : String :=
  a.output_dir.getD (a.top_level_dir ++ "/inference_output")

/-- The resolved eraser path list (`inference.py`, lines 151-154): the
sentinel `['default_path']` is replaced by the single default eraser pickle
under the top-level directory. -/
def resolvedEraserPaths (a : InfArgs) : Option (List String) :=
  if a.eraser_path_list = some ["default_path"] then
    some [a.top_level_dir ++ "/data/concept_eraser/eraser_models/eraser.pkl"]
  else a.eraser_path_list

/-- `{"_debiased" if args.ckpt_path else ""}` in the output filenames. -/
def debiasedTag (a : InfArgs) : String :=
  if truthyStr a.ckpt_path then "_debiased" else ""

/-- `{("_" + args.experiment_id) if args.experiment_id else ""}` in the
output filenames. -/
def expTag (a : InfArgs) : String :=
  if truthyStr a.experiment_id then "_" ++ a.experiment_id.getD "" else ""

/-- `{("_eraser") if args.eraser_path_list else ""}` in the output filenames
(`inference.py`, lines 175/192/195): keyed on the raw parsed option, not the
resolved list. -/
def eraserTag (a : InfArgs) : String :=
  if truthyList a.eraser_path_list then "_eraser" else ""

/-- The intrasentence results filename (`inference.py`, line 175). -/
def intraOutPath (a : InfArgs) (lang : String) : String :=
  outputDir a ++ "/intrasentence_" ++ a.intrasentence_model ++ debiasedTag a
    ++ "_" ++ lang ++ expTag a ++ eraserTag a ++ ".json"

/-- The intersentence results filename (`inference.py`, line 192). -/
def interOutPath (a : InfArgs) (lang : String) : String :=
  outputDir a ++ "/intersentence_" ++ a.intersentence_model ++ debiasedTag a
    ++ "_" ++ lang ++ expTag a ++ eraserTag a ++ ".json"

/-- The combined results filename (`inference.py`, line 195). -/
def combinedOutPath (a : InfArgs) (lang : String) : String :=
  outputDir a ++ "/combined_results"
    ++ (if !a.skip_intrasentence then "_" ++ a.intrasentence_model else "")
    ++ (if !a.skip_intersentence then "_" ++ a.intersentence_model else "")
    ++ debiasedTag a ++ "_" ++ lang ++ expTag a ++ eraserTag a ++ ".json"

/-- JSON payloads `main` writes: one runner's result object, or the combined
results dictionary (an association list in insertion order). -/
inductive JsonOut
  | result (r : String)
  | combined (entries : List (String × String))
deriving DecidableEq, Repr

/-- The observable effects of `main` in program order. -/
inductive Ev
  | makedirs (path : String)
  | getattrModel (name : String) (ckptOrPretrained : String) (lang : String)
      (eraserPaths : Option (List String)) (eraserBeforeLangAdapt : Bool)
  | runIntrasentence
  | runIntersentence
  | writeFile (path : String) (content : JsonOut)
deriving DecidableEq, Repr

/-- Python errors `main` can raise in the modelled fragment. -/
inductive PyErr
  | nameError (n : String)
deriving DecidableEq, Repr

/-- `main(args)` (`inference.py`, lines 130-199) as the list of its observable
effects paired with the error it raises, if any.
`IntrasentenceInferenceRunner` and `IntersentenceInferenceRunner` live under
`src/runners`, which is not among the repository's two source files; their
`run()` results are abstracted as the opaque parameters `intraRes` and
`interRes`.  The local variable `lang` is assigned only inside the two
inference branches (`inference.py`, lines 163/179); it is threaded as an
`Option`: reading it unbound while building the combined-results filename
(line 195) raises a `NameError`, in which case the combined file is not
written. -/
def mainEvents (a : InfArgs) (intraRes interRes : String) : List Ev × Option PyErr :=
  let intraEvents : List Ev :=
    if a.skip_intrasentence then [] else
      [Ev.getattrModel a.intrasentence_model (orStr a.ckpt_path a.pretrained_model_name)
         (langOf (dataPathIntra a)) (resolvedEraserPaths a) a.eraser_before_lang_adapt,
       Ev.runIntrasentence,
       Ev.writeFile (intraOutPath a (langOf (dataPathIntra a))) (JsonOut.result intraRes)]
  let interEvents : List Ev :=
    if a.skip_intersentence then [] else
      [Ev.getattrModel a.intersentence_model (orStr a.ckpt_path a.pretrained_model_name)
         (langOf (dataPathInter a)) (resolvedEraserPaths a) a.eraser_before_lang_adapt,
       Ev.runIntersentence,
       Ev.writeFile (interOutPath a (langOf (dataPathInter a))) (JsonOut.result interRes)]
  let combined : List (String × String) :=
    (if a.skip_intrasentence then [] else [("intrasentence", intraRes)])
      ++ (if a.skip_intersentence then [] else [("intersentence", interRes)])
  let lang : Option String :=
    if !a.skip_intersentence then some (langOf (dataPathInter a))
    else if !a.skip_intrasentence then some (langOf (dataPathIntra a))
    else none
  match lang with
  | none =>
    ([Ev.makedirs (outputDir a)] ++ intraEvents ++ interEvents,
      some (PyErr.nameError "lang"))
  | some lg =>
    ([Ev.makedirs (outputDir a)] ++ intraEvents ++ interEvents
      ++ [Ev.writeFile (combinedOutPath a lg) (JsonOut.combined combined)], none)

end Inference

/-! ### Supporting lemmas about the `model_BERT.py` embedding -/

namespace RefineLM

variable {α : Type*} [LinearOrderedField α]

theorem length_zeros (n : ℕ) : (zeros (α := α) n).length = n := by
  simp [zeros]

theorem getD_zeros (n j : ℕ) : (zeros (α := α) n).getD j 0 = 0 := by
  simp only [zeros, List.getD_eq_getElem?_getD, List.getElem?_replicate]
  split <;> rfl

theorem mem_zeros {x : α} {n : ℕ} (h : x ∈ zeros (α := α) n) : x = 0 :=
  List.eq_of_mem_replicate h

theorem sum_zeros (n : ℕ) : (zeros (α := α) n).sum = 0 := by
  simp [zeros]

theorem scatter_nil (row : List α) : scatter row [] = row := rfl

theorem scatter_cons (row : List α) (q : ℕ × α) (ps : List (ℕ × α)) :
    scatter row (q :: ps) = scatter (row.set q.1 q.2) ps := rfl

theorem length_scatter (row : List α) (ps : List (ℕ × α)) :
    (scatter row ps).length = row.length := by
  induction ps generalizing row with
  | nil => rfl
  | cons q ps ih => rw [scatter_cons, ih, List.length_set]

theorem scatter_getElem?_of_forall_ne {row : List α} {ps : List (ℕ × α)} {j : ℕ}
    (h : ∀ p ∈ ps, p.1 ≠ j) : (scatter row ps)[j]? = row[j]? := by
  induction ps generalizing row with
  | nil => rfl
  | cons q ps ih =>
    rw [scatter_cons, ih (fun p hp => h p (List.mem_cons_of_mem _ hp))]
    exact List.getElem?_set_ne (h q (List.mem_cons_self _ _))

theorem scatter_getElem?_of_mem {row : List α} {ps : List (ℕ × α)} {i : ℕ} {x : α}
    (hnd : (ps.map Prod.fst).Nodup) (hmem : (i, x) ∈ ps) (hi : i < row.length) :
    (scatter row ps)[i]? = some x := by
  induction ps generalizing row with
  | nil => cases hmem
  | cons q ps ih =>
    rw [scatter_cons]
    rcases List.mem_cons.mp hmem with h | h
    · cases h.symm
      have hq : i ∉ ps.map Prod.fst := (List.nodup_cons.mp hnd).1
      rw [scatter_getElem?_of_forall_ne
        (fun p hp hEq => hq (by rw [← hEq]; exact List.mem_map_of_mem Prod.fst hp))]
      exact List.getElem?_set_self hi
    · exact ih (List.nodup_cons.mp hnd).2 h (by rwa [List.length_set])

theorem getD_set_ne {l : List α} {i j : ℕ} {a d : α} (h : i ≠ j) :
    (l.set i a).getD j d = l.getD j d := by
  simp [List.getD_eq_getElem?_getD, List.getElem?_set_ne h]

theorem sum_set_of_getD_eq_zero {l : List α} {i : ℕ} {x : α}
    (h : i < l.length) (hz : l.getD i 0 = 0) : (l.set i x).sum = l.sum + x := by
  induction l generalizing i with
  | nil => simp at h
  | cons y ys ih =>
    cases i with
    | zero =>
      simp only [List.getD_cons_zero] at hz
      simp [List.set, hz]
      ring
    | succ n =>
      simp only [List.getD_cons_succ] at hz
      have hn : n < ys.length := by simpa using h
      simp only [List.set, List.sum_cons, ih hn hz]
      ring

theorem sum_scatter {row : List α} {ps : List (ℕ × α)}
    (hnd : (ps.map Prod.fst).Nodup)
    (hlt : ∀ p ∈ ps, p.1 < row.length)
    (hz : ∀ p ∈ ps, row.getD p.1 0 = 0) :
    (scatter row ps).sum = row.sum + (ps.map Prod.snd).sum := by
  induction ps generalizing row with
  | nil => simp [scatter_nil]
  | cons q ps ih =>
    rw [scatter_cons]
    have hq1 : q.1 < row.length := hlt q (List.mem_cons_self _ _)
    have hnot : q.1 ∉ ps.map Prod.fst := (List.nodup_cons.mp hnd).1
    have hne : ∀ p ∈ ps, q.1 ≠ p.1 :=
      fun p hp hEq => hnot (hEq ▸ List.mem_map_of_mem Prod.fst hp)
    rw [ih (List.nodup_cons.mp hnd).2
      (fun p hp => by rw [List.length_set]; exact hlt p (List.mem_cons_of_mem _ hp))
      (fun p hp => by
        rw [getD_set_ne (hne p hp)]; exact hz p (List.mem_cons_of_mem _ hp)),
      sum_set_of_getD_eq_zero hq1 (hz q (List.mem_cons_self _ _))]
    simp
    ring

theorem length_softmax (e : α → α) (v : List α) : (softmax e v).length = v.length := by
  simp [softmax]

theorem length_linear {W : List (List α)} {b : List α} {k : ℕ}
    (hW : W.length = k) (hb : b.length = k) (v : List α) :
    (linear W b v).length = k := by
  simp [linear, hW, hb]

theorem softmax_sum {e : α → α} (he : ∀ x, 0 < e x) {v : List α} (hv : v ≠ []) :
    (softmax e v).sum = 1 := by
  have hS : 0 < (v.map e).sum :=
    List.sum_pos _ (fun x hx => by obtain ⟨y, _, rfl⟩ := List.mem_map.mp hx; exact he y)
      (by simpa using hv)
  have hrw : softmax e v = v.map (fun x => e x * ((v.map e).sum)⁻¹) := by
    simp [softmax, div_eq_mul_inv]
  rw [hrw, List.sum_map_mul_right, mul_inv_cancel₀ hS.ne']

theorem softmax_mem_pos {e : α → α} (he : ∀ x, 0 < e x) {v : List α} {y : α}
    (hy : y ∈ softmax e v) : 0 < y := by
  obtain ⟨x, hx, rfl⟩ := List.mem_map.mp hy
  have hS : 0 < (v.map e).sum :=
    List.sum_pos _ (fun z hz => by obtain ⟨w, _, rfl⟩ := List.mem_map.mp hz; exact he w)
      (by simp [List.ne_nil_of_mem hx])
  exact div_pos (he x) hS

theorem softmax_singleton {e : α → α} (he : ∀ x, 0 < e x) {v : List α}
    (hv : v.length = 1) {y : α} (hy : y ∈ softmax e v) : y = 1 := by
  cases v with
  | nil => simp at hv
  | cons x tail =>
    have htail : tail = [] := by
      simpa using hv
    subst htail
    simp only [softmax, List.map_cons, List.map_nil, List.sum_cons, List.sum_nil,
      add_zero, List.mem_singleton] at hy
    subst hy
    exact div_self (he x).ne'

theorem softmax_mem_lt_one {e : α → α} (he : ∀ x, 0 < e x) {v : List α}
    (hlen : 2 ≤ v.length) {y : α} (hy : y ∈ softmax e v) : y < 1 := by
  obtain ⟨x, hx, rfl⟩ := List.mem_map.mp hy
  have hmem : e x ∈ v.map e := List.mem_map_of_mem _ hx
  have hperm := List.perm_cons_erase hmem
  have hsum : (v.map e).sum = e x + ((v.map e).erase (e x)).sum := by
    rw [hperm.sum_eq, List.sum_cons]
  have hlenE : ((v.map e).erase (e x)).length = v.length - 1 := by
    rw [List.length_erase_of_mem hmem, List.length_map]
  have hposE : 0 < ((v.map e).erase (e x)).sum := by
    refine List.sum_pos _ (fun z hz => ?_) ?_
    · obtain ⟨w, _, rfl⟩ := List.mem_map.mp (List.mem_of_mem_erase hz)
      exact he w
    · have : 0 < ((v.map e).erase (e x)).length := by omega
      exact List.ne_nil_of_length_pos this
  have hlt : e x < (v.map e).sum := by rw [hsum]; linarith
  have hS : 0 < (v.map e).sum := (he x).trans hlt
  exact (div_lt_one hS).mpr hlt

theorem sortedPairs_perm (v : List α) :
    (sortedPairs v).Perm (v.zip (List.range v.length)) :=
  List.perm_insertionSort _ _

theorem length_sortedPairs (v : List α) : (sortedPairs v).length = v.length := by
  rw [(sortedPairs_perm v).length_eq, List.length_zip, List.length_range, min_self]

theorem map_snd_sortedPairs_perm (v : List α) :
    ((sortedPairs v).map Prod.snd).Perm (List.range v.length) := by
  have h := (sortedPairs_perm v).map Prod.snd
  rwa [List.map_snd_zip _ _ (by simp)] at h

theorem topkIndices_eq_take (k : ℕ) (v : List α) :
    topkIndices k v = ((sortedPairs v).map Prod.snd).take k := by
  simp [topkIndices, List.map_take]

theorem topkIndices_nodup (k : ℕ) (v : List α) : (topkIndices k v).Nodup := by
  have h1 : ((sortedPairs v).map Prod.snd).Nodup :=
    ((map_snd_sortedPairs_perm v).nodup_iff).mpr (List.nodup_range _)
  rw [topkIndices_eq_take]
  exact List.Nodup.sublist (List.take_sublist _ _) h1

theorem topkIndices_mem_lt {k : ℕ} {v : List α} {i : ℕ} (h : i ∈ topkIndices k v) :
    i < v.length := by
  rw [topkIndices_eq_take] at h
  have h2 : i ∈ (sortedPairs v).map Prod.snd := List.mem_of_mem_take h
  have h3 := (map_snd_sortedPairs_perm v).mem_iff.mp h2
  exact List.mem_range.mp h3

theorem length_topkIndices {k : ℕ} {v : List α} (h : k ≤ v.length) :
    (topkIndices k v).length = k := by
  simp only [topkIndices, List.length_map, List.length_take, length_sortedPairs]
  omega

theorem length_topkValues {k : ℕ} {v : List α} (h : k ≤ v.length) :
    (topkValues k v).length = k := by
  simp only [topkValues, List.length_map, List.length_take, length_sortedPairs]
  omega

theorem getD_of_getElem? {β : Type*} {l : List β} {i : ℕ} {x d : β}
    (h : l[i]? = some x) : l.getD i d = x := by
  simp [List.getD_eq_getElem?_getD, h]

theorem forward_getElem? {e : α → α} {W : List (List α)} {b : List α}
    {k maskId : ℕ} {bert : List (List ℕ) → List (List (List α))}
    {input_ids am tt : List (List ℕ)} {i : ℕ} {ids : List ℕ} {rows : List (List α)}
    (hi : input_ids[i]? = some ids) (ho : (bert input_ids)[i]? = some rows) :
    (forward e W b k maskId bert input_ids am tt)[i]? =
      some (forwardSentence e W b k maskId ids rows) := by
  have hzip : (input_ids.zip (bert input_ids))[i]? = some (ids, rows) :=
    List.getElem?_zip_eq_some.mpr ⟨hi, ho⟩
  unfold forward
  rw [List.getElem?_map, hzip]
  rfl

theorem forwardSentence_getElem? {e : α → α} {W : List (List α)} {b : List α}
    {k maskId : ℕ} {ids : List ℕ} {rows : List (List α)} {p : ℕ} {t : ℕ}
    {row : List α} (hp : ids[p]? = some t) (hrow : rows[p]? = some row) :
    (forwardSentence e W b k maskId ids rows)[p]? =
      some (if t = maskId then rescoreRow e W b k row else zeros row.length) := by
  have hzip : (ids.zip rows)[p]? = some (t, row) :=
    List.getElem?_zip_eq_some.mpr ⟨hp, hrow⟩
  unfold forwardSentence
  rw [List.getElem?_map, hzip]
  rfl

theorem forward_getD_masked {e : α → α} {W : List (List α)} {b : List α}
    {k maskId : ℕ} {bert : List (List ℕ) → List (List (List α))}
    {input_ids am tt : List (List ℕ)} {i p : ℕ} {ids : List ℕ}
    {rows : List (List α)} {row : List α}
    (hi : input_ids[i]? = some ids) (ho : (bert input_ids)[i]? = some rows)
    (hp : ids[p]? = some maskId) (hrow : rows[p]? = some row) :
    ((forward e W b k maskId bert input_ids am tt).getD i []).getD p [] =
      rescoreRow e W b k row := by
  have hF : (forward e W b k maskId bert input_ids am tt).getD i [] =
      forwardSentence e W b k maskId ids rows :=
    getD_of_getElem? (forward_getElem? hi ho)
  have hS := @forwardSentence_getElem? α _ e W b k maskId ids rows p maskId row hp hrow
  rw [if_pos rfl] at hS
  rw [hF]
  exact getD_of_getElem? hS

theorem rescoreRow_getD_topk {e : α → α} {W : List (List α)} {b : List α}
    {k : ℕ} {row : List α} {j : ℕ}
    (hW : W.length = k) (hb : b.length = k) (hkV : k ≤ row.length) (hj : j < k) :
    (rescoreRow e W b k row).getD ((topkIndices k row).getD j 0) 0 =
      (softmax e (linear W b (topkValues k row))).getD j 0 := by
  set idxs := topkIndices k row with hidxs
  set s := softmax e (linear W b (topkValues k row)) with hs
  have hlenIdx : idxs.length = k := length_topkIndices hkV
  have hlenS : s.length = k := by rw [hs, length_softmax, length_linear hW hb]
  have hji : j < idxs.length := by omega
  have hjs : j < s.length := by omega
  have hzip : (idxs.zip s)[j]? = some (idxs[j], s[j]) :=
    List.getElem?_zip_eq_some.mpr ⟨List.getElem?_eq_getElem hji, List.getElem?_eq_getElem hjs⟩
  have hmem : (idxs[j], s[j]) ∈ idxs.zip s := List.getElem?_mem hzip
  have hnd : ((idxs.zip s).map Prod.fst).Nodup := by
    rw [List.map_fst_zip _ _ (le_of_eq (hlenIdx.trans hlenS.symm))]
    exact topkIndices_nodup k row
  have hlt : idxs[j] < (zeros (α := α) row.length).length := by
    rw [length_zeros]
    exact topkIndices_mem_lt (List.getElem_mem hji)
  have hres : (rescoreRow e W b k row)[idxs[j]]? = some s[j] := by
    unfold rescoreRow
    exact scatter_getElem?_of_mem hnd hmem hlt
  have hidxj : idxs.getD j 0 = idxs[j] :=
    getD_of_getElem? (List.getElem?_eq_getElem hji)
  have hsj : s.getD j 0 = s[j] :=
    getD_of_getElem? (List.getElem?_eq_getElem hjs)
  rw [hidxj, hsj]
  exact getD_of_getElem? hres

theorem length_rescoreRow (e : α → α) (W : List (List α)) (b : List α)
    (k : ℕ) (row : List α) : (rescoreRow e W b k row).length = row.length := by
  rw [rescoreRow, length_scatter, length_zeros]

theorem rescoreRow_getD_of_not_topk {e : α → α} {W : List (List α)} {b : List α}
    {k : ℕ} {row : List α} {v2 : ℕ} (h : v2 ∉ topkIndices k row) :
    (rescoreRow e W b k row).getD v2 0 = 0 := by
  have hne : ∀ q ∈ (topkIndices k row).zip
      (softmax e (linear W b (topkValues k row))), q.1 ≠ v2 := by
    intro q hq hEq
    exact h (hEq ▸ (List.of_mem_zip hq).1)
  rw [rescoreRow, List.getD_eq_getElem?_getD, scatter_getElem?_of_forall_ne hne,
    ← List.getD_eq_getElem?_getD]
  exact getD_zeros _ _

theorem rescoreRow_sum {e : α → α} (he : ∀ x, 0 < e x) {W : List (List α)}
    {b : List α} {k : ℕ} {row : List α}
    (hW : W.length = k) (hb : b.length = k) (hkV : k ≤ row.length) (hk : 0 < k) :
    (rescoreRow e W b k row).sum = 1 := by
  set idxs := topkIndices k row with hidxs
  set s := softmax e (linear W b (topkValues k row)) with hs
  have hlenIdx : idxs.length = k := length_topkIndices hkV
  have hlenS : s.length = k := by rw [hs, length_softmax, length_linear hW hb]
  have hnd : ((idxs.zip s).map Prod.fst).Nodup := by
    rw [List.map_fst_zip _ _ (le_of_eq (hlenIdx.trans hlenS.symm))]
    exact topkIndices_nodup k row
  have hlt : ∀ q ∈ idxs.zip s, q.1 < (zeros (α := α) row.length).length := by
    intro q hq
    rw [length_zeros]
    exact topkIndices_mem_lt (List.of_mem_zip hq).1
  have hz : ∀ q ∈ idxs.zip s, (zeros (α := α) row.length).getD q.1 0 = 0 :=
    fun q _ => getD_zeros _ _
  have hlin : linear W b (topkValues k row) ≠ [] := by
    have := length_linear hW hb (topkValues (α := α) k row)
    intro hnil
    rw [hnil] at this
    simp at this
    omega
  rw [rescoreRow, sum_scatter hnd hlt hz, sum_zeros,
    List.map_snd_zip _ _ (le_of_eq (hlenS.trans hlenIdx.symm))]
  rw [hs, softmax_sum he hlin]
  ring

theorem zip_replicate_eq_map {γ β : Type*} (a : γ) (l : List β) (n : ℕ)
    (h : l.length = n) : (List.replicate n a).zip l = l.map (fun x => (a, x)) := by
  induction l generalizing n with
  | nil => subst h; rfl
  | cons x xs ih =>
    subst h
    rw [List.length_cons, List.replicate_succ, List.zip_cons_cons, ih xs.length rfl]
    rfl

theorem dot_replicate_one (v : List α) : dot (List.replicate v.length 1) v = v.sum := by
  rw [dot, zip_replicate_eq_map _ _ _ rfl, List.map_map]
  show (v.map fun x => 1 * x).sum = v.sum
  simp

theorem linear_ones {b : List α} {k : ℕ} (hb : b.length = k) {v : List α}
    (hv : v.length = k) : linear (onesMatrix k) b v = b.map (fun bj => v.sum + bj) := by
  rw [linear, onesMatrix, zip_replicate_eq_map _ _ _ hb, List.map_map]
  have : dot (List.replicate k (1 : α)) v = v.sum := by
    rw [← hv]
    exact dot_replicate_one v
  simp [Function.comp, this]

end RefineLM

/-! ### The claims about `CustomBERTModel` (`model_BERT.py`) -/

open RefineLM in
/-- C1: for every batch and sentence `i`, `CustomBERTModel.forward` selects the
positions `p` where `input_ids[i]` equals the tokenizer's mask token id, takes
the `k` largest values of the underlying model's raw logits there (top-k on the
logits themselves, not on softmaxed probabilities), passes them through the
learned linear layer, softmaxes the layer's output, and writes the results
back at the corresponding top-k vocabulary indices of the returned tensor. -/
theorem claim_C1 {α : Type*} [LinearOrderedField α] (e : α → α)
    (W : List (List α)) (b : List α) (k maskId : ℕ)
    (bert : List (List ℕ) → List (List (List α)))
    (input_ids am tt : List (List ℕ)) (i p j : ℕ)
    (ids : List ℕ) (rows : List (List α)) (row : List α)
    (hi : input_ids[i]? = some ids)
    (ho : (bert input_ids)[i]? = some rows)
    (hp : ids[p]? = some maskId)
    (hrow : rows[p]? = some row)
    (hW : W.length = k) (hb : b.length = k) (hkV : k ≤ row.length) (hj : j < k) :
    (((forward e W b k maskId bert input_ids am tt).getD i []).getD p []).getD
        ((topkIndices k row).getD j 0) 0
      = (softmax e (linear W b (topkValues k row))).getD j 0 := by
  rw [forward_getD_masked hi ho hp hrow]
  exact rescoreRow_getD_topk hW hb hkV hj

open RefineLM in
/-- Witness for C1: a two-sentence-position batch over `ℚ`, with the identity
in place of the exponential; position 1 of the single sentence is masked
(token 9), the logits row there is `[4, 6, 5]` and `k = 2`. -/
theorem claim_C1_witness :
    (((forward (fun x => x) [[(1:ℚ), 0], [0, 1]] [0, 0] 2 9
          (fun _ => [[[1, 2, 3], [4, 6, 5]]]) [[7, 9]] [] []).getD 0 []).getD 1 []).getD
        ((topkIndices 2 [(4:ℚ), 6, 5]).getD 0 0) 0
      = (softmax (fun x => x)
          (linear [[(1:ℚ), 0], [0, 1]] [0, 0] (topkValues 2 [(4:ℚ), 6, 5]))).getD 0 0 :=
  claim_C1 (fun x => x) [[(1:ℚ), 0], [0, 1]] [0, 0] 2 9
    (fun _ => [[[1, 2, 3], [4, 6, 5]]]) [[7, 9]] [] [] 0 1 0
    [7, 9] [[1, 2, 3], [4, 6, 5]] [4, 6, 5]
    rfl rfl rfl rfl rfl rfl (by decide) (by decide)

open RefineLM in
/-- C2: the tensor `CustomBERTModel.forward` returns has the same shape as the
underlying model's output, rows at non-masked positions are entirely zero, and
at a masked position every vocabulary index outside that position's top-k
indices is zero (the result starts as `torch.zeros_like(output)` and only the
top-k positions are assigned). -/
theorem claim_C2 {α : Type*} [LinearOrderedField α] (e : α → α)
    (W : List (List α)) (b : List α) (k maskId : ℕ)
    (bert : List (List ℕ) → List (List (List α)))
    (input_ids am tt : List (List ℕ)) (i p : ℕ)
    (ids : List ℕ) (rows : List (List α)) (t : ℕ) (row : List α)
    (hlen : input_ids.length = (bert input_ids).length)
    (hi : input_ids[i]? = some ids)
    (ho : (bert input_ids)[i]? = some rows)
    (hrows : ids.length = rows.length)
    (hp : ids[p]? = some t)
    (hrow : rows[p]? = some row) :
    (forward e W b k maskId bert input_ids am tt).length = (bert input_ids).length ∧
    ((forward e W b k maskId bert input_ids am tt).getD i []).length = rows.length ∧
    (((forward e W b k maskId bert input_ids am tt).getD i []).getD p []).length
      = row.length ∧
    (t ≠ maskId →
      ((forward e W b k maskId bert input_ids am tt).getD i []).getD p []
        = zeros row.length) ∧
    (∀ v2 : ℕ, v2 ∉ topkIndices k row →
      ((((forward e W b k maskId bert input_ids am tt).getD i []).getD p []).getD v2 0)
        = 0) := by
  have hF : (forward e W b k maskId bert input_ids am tt).getD i [] =
      forwardSentence e W b k maskId ids rows :=
    getD_of_getElem? (forward_getElem? hi ho)
  have hS := @forwardSentence_getElem? α _ e W b k maskId ids rows p t row hp hrow
  have hP : (forwardSentence e W b k maskId ids rows).getD p [] =
      if t = maskId then rescoreRow e W b k row else zeros row.length :=
    getD_of_getElem? hS
  refine ⟨?_, ?_, ?_, ?_, ?_⟩
  · rw [forward, List.length_map, List.length_zip, hlen, min_self]
  · rw [hF, forwardSentence, List.length_map, List.length_zip, hrows, min_self]
  · rw [hF, hP]
    split
    · exact length_rescoreRow e W b k row
    · exact length_zeros row.length
  · intro ht
    rw [hF, hP, if_neg ht]
  · intro v2 hv2
    rw [hF, hP]
    split
    · exact rescoreRow_getD_of_not_topk hv2
    · exact getD_zeros _ _

open RefineLM in
/-- Witness for C2: the batch of `claim_C1_witness`, read at the non-masked
position 0 (token 7, mask id 9; its row is all zeros), with vocabulary index 1
outside the top-k index set of the row at that position. -/
theorem claim_C2_witness :
    (forward (fun x => x) [[(1:ℚ), 0], [0, 1]] [0, 0] 2 9
        (fun _ => [[[1, 2, 3], [4, 6, 5]]]) [[7, 9]] [] []).length = 1 ∧
    ((forward (fun x => x) [[(1:ℚ), 0], [0, 1]] [0, 0] 2 9
        (fun _ => [[[1, 2, 3], [4, 6, 5]]]) [[7, 9]] [] []).getD 0 []).getD 0 []
      = zeros 3 ∧
    (((forward (fun x => x) [[(1:ℚ), 0], [0, 1]] [0, 0] 2 9
        (fun _ => [[[1, 2, 3], [4, 6, 5]]]) [[7, 9]] [] []).getD 0 []).getD 0 []).getD 0 0
      = 0 := by
  have h := claim_C2 (fun x => x) [[(1:ℚ), 0], [0, 1]] [0, 0] 2 9
    (fun _ => [[[1, 2, 3], [4, 6, 5]]]) [[7, 9]] [] [] 0 0
    [7, 9] [[1, 2, 3], [4, 6, 5]] 7 [1, 2, 3]
    rfl rfl rfl rfl rfl rfl
  exact ⟨h.1, h.2.2.2.1 (by decide), h.2.2.2.2 0 (by decide)⟩

open RefineLM in
/-- C3 (amended): for every masked position, the `k` values scattered into
that position's row are the softmax of the re-weighting layer's output, each
is strictly positive, and the entries of that row of the returned tensor sum
to 1 — all of this for every `k ≥ 1`; each value lies strictly below 1 when
`2 ≤ k`, while for `k = 1` the single scattered value equals exactly 1 (so as
literally stated — "strictly between 0 and 1" — the claim fails at `k = 1`;
see the counterexample). -/
theorem claim_C3 (W : List (List ℝ)) (b : List ℝ) (k maskId : ℕ)
    (bert : List (List ℕ) → List (List (List ℝ)))
    (input_ids am tt : List (List ℕ)) (i p : ℕ)
    (ids : List ℕ) (rows : List (List ℝ)) (row : List ℝ)
    (hi : input_ids[i]? = some ids)
    (ho : (bert input_ids)[i]? = some rows)
    (hp : ids[p]? = some maskId)
    (hrow : rows[p]? = some row)
    (hW : W.length = k) (hb : b.length = k) (hkV : k ≤ row.length) (hk : 0 < k) :
    (∀ j : ℕ, j < k →
      (((forward Real.exp W b k maskId bert input_ids am tt).getD i []).getD p []).getD
          ((topkIndices k row).getD j 0) 0
        = (softmax Real.exp (linear W b (topkValues k row))).getD j 0 ∧
      0 < (softmax Real.exp (linear W b (topkValues k row))).getD j 0 ∧
      (2 ≤ k → (softmax Real.exp (linear W b (topkValues k row))).getD j 0 < 1) ∧
      (k = 1 → (softmax Real.exp (linear W b (topkValues k row))).getD j 0 = 1)) ∧
    ((((forward Real.exp W b k maskId bert input_ids am tt).getD i []).getD p []).sum
      = 1) := by
  have hmask := @forward_getD_masked ℝ _ Real.exp W b k maskId bert input_ids am tt
    i p ids rows row hi ho hp hrow
  have hlenS : (softmax Real.exp (linear W b (topkValues k row))).length = k := by
    rw [length_softmax, length_linear hW hb]
  constructor
  · intro j hj
    have hjs : j < (softmax Real.exp (linear W b (topkValues k row))).length := by omega
    have hmem : (softmax Real.exp (linear W b (topkValues k row))).getD j 0
        ∈ softmax Real.exp (linear W b (topkValues k row)) := by
      rw [getD_of_getElem? (List.getElem?_eq_getElem hjs)]
      exact List.getElem_mem hjs
    refine ⟨?_, ?_, ?_, ?_⟩
    · rw [hmask]
      exact rescoreRow_getD_topk hW hb hkV hj
    · exact softmax_mem_pos (fun x => Real.exp_pos x) hmem
    · intro hk2
      refine softmax_mem_lt_one (fun x => Real.exp_pos x) ?_ hmem
      rw [length_linear hW hb]
      exact hk2
    · intro hk1
      refine softmax_singleton (fun x => Real.exp_pos x) ?_ hmem
      rw [length_linear hW hb]
      exact hk1
  · rw [hmask]
    exact rescoreRow_sum (fun x => Real.exp_pos x) hW hb hkV hk

open RefineLM in
/-- Witness for C3 (amended): a single masked sentence over `ℝ` with `k = 2`,
vocabulary size 3, mask token id 9. -/
theorem claim_C3_witness :
    (∀ j : ℕ, j < 2 →
      (((forward Real.exp [[(1:ℝ), 0], [0, 1]] [0, 0] 2 9
            (fun _ => [[[0, 1, 2]]]) [[9]] [] []).getD 0 []).getD 0 []).getD
          ((topkIndices 2 [(0:ℝ), 1, 2]).getD j 0) 0
        = (softmax Real.exp
            (linear [[(1:ℝ), 0], [0, 1]] [0, 0] (topkValues 2 [(0:ℝ), 1, 2]))).getD j 0 ∧
      0 < (softmax Real.exp
            (linear [[(1:ℝ), 0], [0, 1]] [0, 0] (topkValues 2 [(0:ℝ), 1, 2]))).getD j 0 ∧
      (2 ≤ 2 → (softmax Real.exp
          (linear [[(1:ℝ), 0], [0, 1]] [0, 0] (topkValues 2 [(0:ℝ), 1, 2]))).getD j 0
        < 1) ∧
      ((2:ℕ) = 1 → (softmax Real.exp
          (linear [[(1:ℝ), 0], [0, 1]] [0, 0] (topkValues 2 [(0:ℝ), 1, 2]))).getD j 0
        = 1)) ∧
    ((((forward Real.exp [[(1:ℝ), 0], [0, 1]] [0, 0] 2 9
          (fun _ => [[[0, 1, 2]]]) [[9]] [] []).getD 0 []).getD 0 []).sum = 1) :=
  claim_C3 [[(1:ℝ), 0], [0, 1]] [0, 0] 2 9 (fun _ => [[[0, 1, 2]]]) [[9]] [] [] 0 0
    [9] [[0, 1, 2]] [0, 1, 2] rfl rfl rfl rfl rfl rfl (by decide) (by decide)

open RefineLM in
/-- Counterexample to C3 as literally stated: with `k = 1` (a one-sentence,
one-position, one-token-vocabulary batch whose only position is masked), the
single value scattered at the top-k index — at a masked position whose top-k
index list `[0]` is trivially pairwise distinct — equals 1, which does not lie
strictly between 0 and 1. -/
theorem claim_C3_counterexample :
    ((forward Real.exp [[(1:ℝ)]] [(0:ℝ)] 1 7 (fun _ => [[[(0:ℝ)]]])
        [[7]] [] []).getD 0 []).getD 0 [] = [1] ∧
    topkIndices 1 [(0:ℝ)] = [0] ∧ ¬ ((1:ℝ) < 1) := by
  refine ⟨?_, rfl, lt_irrefl 1⟩
  norm_num [forward, forwardSentence, rescoreRow, scatter, topkIndices, topkValues,
    sortedPairs, linear, dot, softmax, zeros, List.insertionSort, List.orderedInsert,
    Real.exp_zero]

open RefineLM in
/-- C9: `nn.init.ones_(self.out.weight)` makes the re-weighting layer compute
`out(v)_j = (Σ_i v_i) + b_j`; hence `out` is invariant under any permutation
of its input vector, and so is the freshly initialized model's re-scored
softmax distribution over the top-k indices. -/
theorem claim_C9 {α : Type*} [LinearOrderedField α] (e : α → α) (b : List α)
    (k : ℕ) (v w : List α) (hv : v.length = k) (hb : b.length = k)
    (hperm : v.Perm w) :
    linear (onesMatrix k) b v = b.map (fun bj => v.sum + bj) ∧
    linear (onesMatrix k) b v = linear (onesMatrix k) b w ∧
    softmax e (linear (onesMatrix k) b v) = softmax e (linear (onesMatrix k) b w) := by
  have hw : w.length = k := hperm.length_eq ▸ hv
  have h1 : linear (onesMatrix k) b v = b.map (fun bj => v.sum + bj) :=
    linear_ones hb hv
  have h2 : linear (onesMatrix k) b w = b.map (fun bj => w.sum + bj) :=
    linear_ones hb hw
  have hsum : v.sum = w.sum := hperm.sum_eq
  have h3 : linear (onesMatrix k) b v = linear (onesMatrix k) b w := by
    rw [h1, h2, hsum]
  exact ⟨h1, h3, by rw [h3]⟩

open RefineLM in
/-- Witness for C9: over `ℚ`, `k = 2`, bias `[5, 7]`, with `[1, 2]` permuted
to `[2, 1]`. -/
theorem claim_C9_witness :
    linear (onesMatrix 2) [(5:ℚ), 7] [1, 2] = [(5:ℚ), 7].map (fun bj => ([(1:ℚ), 2]).sum + bj) ∧
    linear (onesMatrix 2) [(5:ℚ), 7] [1, 2] = linear (onesMatrix 2) [(5:ℚ), 7] [2, 1] ∧
    softmax (fun x => x) (linear (onesMatrix 2) [(5:ℚ), 7] [1, 2])
      = softmax (fun x => x) (linear (onesMatrix 2) [(5:ℚ), 7] [2, 1]) :=
  claim_C9 (fun x => x) [(5:ℚ), 7] 2 [1, 2] [2, 1] rfl rfl (List.Perm.swap 2 1 [])

open RefineLM in
/-- C10: `CustomBERTModel.forward` accepts `attention_mask` and
`token_type_ids` but never reads them — with equal `input_ids` and equal model
parameters the returned tensor is the same whatever those two arguments are. -/
theorem claim_C10 {α : Type*} [LinearOrderedField α] (e : α → α)
    (W : List (List α)) (b : List α) (k maskId : ℕ)
    (bert : List (List ℕ) → List (List (List α)))
    (input_ids am1 tt1 am2 tt2 : List (List ℕ)) :
    forward e W b k maskId bert input_ids am1 tt1
      = forward e W b k maskId bert input_ids am2 tt2 := rfl

/-! ### Supporting lemmas about the `inference.py` embedding -/

namespace Inference

theorem splitValues_opt_mem {t : String} (ht : isOpt t = true) :
    ∀ l : List String, t ∈ l → t ∈ (splitValues l).2 := by
  intro l
  induction l with
  | nil => intro h; cases h
  | cons s rest ih =>
    intro h
    simp only [splitValues]
    split
    · exact h
    · rcases List.mem_cons.mp h with rfl | h2
      · exact absurd ht (by assumption)
      · exact ih h2

theorem splitValues_mem_sub :
    ∀ (l : List String) (t : String), t ∈ (splitValues l).2 → t ∈ l := by
  intro l
  induction l with
  | nil => intro t h; exact absurd h (List.not_mem_nil t)
  | cons s rest ih =>
    intro t h
    simp only [splitValues] at h
    split at h
    · exact h
    · exact List.mem_cons_of_mem s (ih t h)

theorem mlm_not_opt {v : String} (h : v ∈ mlmChoices) : isOpt v = false := by
  simp only [mlmChoices, List.mem_cons, List.not_mem_nil, or_false, List.mem_singleton] at h
  rcases h with rfl | rfl <;> decide

theorem nsp_not_opt {v : String} (h : v ∈ nspChoices) : isOpt v = false := by
  simp only [nspChoices, List.mem_cons, List.not_mem_nil, or_false, List.mem_singleton] at h
  rcases h with rfl | rfl <;> decide

theorem pretrained_not_opt {v : String} (h : v ∈ pretrainedChoices) : isOpt v = false := by
  simp only [pretrainedChoices, List.mem_cons, List.not_mem_nil, or_false,
    List.mem_singleton] at h
  rcases h with rfl | rfl <;> decide

theorem eraser_some_cons (w : List String) :
    ∃ x xs, (some (eraserConst w) : Option (List String)) = some (x :: xs) := by
  rcases w with _ | ⟨y, ys⟩
  · exact ⟨"default_path", [], rfl⟩
  · exact ⟨y, ys, by simp [eraserConst]⟩

theorem stepValue_eq {upd : InfArgs → String → InfArgs} {rest l2 : List String}
    {a a2 : InfArgs} (h : stepValue upd rest a = some (l2, a2)) :
    ∃ v, rest = v :: l2 ∧ isOpt v = false ∧ a2 = upd a v := by
  cases rest with
  | nil => exact Option.noConfusion h
  | cons v rest2 =>
    simp only [stepValue] at h
    split_ifs at h with hv
    simp only [Option.some.injEq, Prod.mk.injEq] at h
    exact ⟨v, by rw [h.1], by simpa using hv, h.2.symm⟩

theorem stepChoice_eq {cs : List String} {upd : InfArgs → String → InfArgs}
    {rest l2 : List String} {a a2 : InfArgs}
    (h : stepChoice cs upd rest a = some (l2, a2)) :
    ∃ v, rest = v :: l2 ∧ v ∈ cs ∧ a2 = upd a v := by
  cases rest with
  | nil => exact Option.noConfusion h
  | cons v rest2 =>
    simp only [stepChoice] at h
    split_ifs at h with hv
    simp only [Option.some.injEq, Prod.mk.injEq] at h
    exact ⟨v, by rw [h.1], hv, h.2.symm⟩

theorem stepFlag_eq {upd : InfArgs → InfArgs} {rest l2 : List String}
    {a a2 : InfArgs} (h : stepFlag upd rest a = some (l2, a2)) :
    l2 = rest ∧ a2 = upd a := by
  simp only [stepFlag, Option.some.injEq, Prod.mk.injEq] at h
  exact ⟨h.1.symm, h.2.symm⟩

theorem stepEraserPaths_eq {rest l2 : List String} {a a2 : InfArgs}
    (h : stepEraserPaths rest a = some (l2, a2)) :
    l2 = (splitValues rest).2 ∧
    a2 = {a with eraser_path_list := some (eraserConst (splitValues rest).1)} := by
  simp only [stepEraserPaths, Option.some.injEq, Prod.mk.injEq] at h
  exact ⟨h.1.symm, h.2.symm⟩

theorem stepTinyEvalFrac_eq {rest l2 : List String} {a a2 : InfArgs}
    (h : stepTinyEvalFrac rest a = some (l2, a2)) :
    (a2 = {a with tiny_eval_frac := some "0.1"} ∨
      ∃ v, a2 = {a with tiny_eval_frac := some v}) ∧
    (l2 = rest ∨ ∃ v, rest = v :: l2 ∧ isOpt v = false) := by
  cases rest with
  | nil =>
    simp only [stepTinyEvalFrac, Option.some.injEq, Prod.mk.injEq] at h
    exact ⟨Or.inl h.2.symm, Or.inl h.1.symm⟩
  | cons v rest2 =>
    simp only [stepTinyEvalFrac] at h
    split_ifs at h with hv
    · simp only [Option.some.injEq, Prod.mk.injEq] at h
      exact ⟨Or.inl h.2.symm, Or.inl h.1.symm⟩
    · simp only [Option.some.injEq, Prod.mk.injEq] at h
      exact ⟨Or.inr ⟨v, h.2.symm⟩, Or.inr ⟨v, by rw [h.1], by simpa using hv⟩⟩

theorem memfacts_cons {v : String} {l2 : List String} (hvopt : isOpt v = false) :
    (∀ t, isOpt t = true → t ∈ v :: l2 → t ∈ l2) ∧ (∀ t, t ∈ l2 → t ∈ v :: l2) := by
  constructor
  · intro t hto htm
    rcases List.mem_cons.mp htm with rfl | hm
    · rw [hvopt] at hto
      exact Bool.noConfusion hto
    · exact hm
  · exact fun t hm => List.mem_cons_of_mem v hm

theorem memfacts_id {l2 : List String} :
    (∀ t : String, isOpt t = true → t ∈ l2 → t ∈ l2) ∧ (∀ t : String, t ∈ l2 → t ∈ l2) :=
  ⟨fun _ _ ht => ht, fun _ ht => ht⟩

theorem parseStep_facts {tok : String} {rest l2 : List String} {a a2 : InfArgs}
    (h : parseStep (tok :: rest) a = some (l2, a2)) :
    (a2.intrasentence_model = a.intrasentence_model ∨ a2.intrasentence_model ∈ mlmChoices) ∧
    (a2.intersentence_model = a.intersentence_model ∨ a2.intersentence_model ∈ nspChoices) ∧
    (a.skip_intersentence = true → a2.skip_intersentence = true) ∧
    (tok ≠ "--eraser-path-list" → a2.eraser_path_list = a.eraser_path_list) ∧
    (tok = "--eraser-path-list" → ∃ x xs, a2.eraser_path_list = some (x :: xs)) ∧
    (∀ t, isOpt t = true → t ∈ rest → t ∈ l2) ∧
    (∀ t, t ∈ l2 → t ∈ rest) := by
  rw [parseStep.eq_2] at h
  by_cases h1 : tok = "--eraser-path-list"
  · rw [if_pos h1] at h
    obtain ⟨hl2, ha2⟩ := stepEraserPaths_eq h
    subst hl2; subst ha2
    exact ⟨Or.inl rfl, Or.inl rfl, fun hx => hx, fun hne => absurd h1 hne,
      fun _ => eraser_some_cons _, fun t ht hm => splitValues_opt_mem ht _ hm,
      fun t hm => splitValues_mem_sub _ t hm⟩
  · rw [if_neg h1] at h
    by_cases h2 : tok = "--top-level-dir"
    · rw [if_pos h2] at h
      obtain ⟨v, hrest, hvopt, ha2⟩ := stepValue_eq h
      subst ha2; subst hrest
      exact ⟨Or.inl rfl, Or.inl rfl, fun hx => hx, fun _ => rfl, fun hc => absurd hc h1,
        (memfacts_cons hvopt).1, (memfacts_cons hvopt).2⟩
    · rw [if_neg h2] at h
      by_cases h3 : tok = "--intrasentence-model"
      · rw [if_pos h3] at h
        obtain ⟨v, hrest, hv, ha2⟩ := stepChoice_eq h
        subst ha2; subst hrest
        exact ⟨Or.inr hv, Or.inl rfl, fun hx => hx, fun _ => rfl, fun hc => absurd hc h1,
          (memfacts_cons (mlm_not_opt hv)).1, (memfacts_cons (mlm_not_opt hv)).2⟩
      · rw [if_neg h3] at h
        by_cases h4 : tok = "--intersentence-model"
        · rw [if_pos h4] at h
          obtain ⟨v, hrest, hv, ha2⟩ := stepChoice_eq h
          subst ha2; subst hrest
          exact ⟨Or.inl rfl, Or.inr hv, fun hx => hx, fun _ => rfl, fun hc => absurd hc h1,
            (memfacts_cons (nsp_not_opt hv)).1, (memfacts_cons (nsp_not_opt hv)).2⟩
        · rw [if_neg h4] at h
          by_cases h5 : tok = "--pretrained-model-name"
          · rw [if_pos h5] at h
            obtain ⟨v, hrest, hv, ha2⟩ := stepChoice_eq h
            subst ha2; subst hrest
            exact ⟨Or.inl rfl, Or.inl rfl, fun hx => hx, fun _ => rfl, fun hc => absurd hc h1,
              (memfacts_cons (pretrained_not_opt hv)).1, (memfacts_cons (pretrained_not_opt hv)).2⟩
          · rw [if_neg h5] at h
            by_cases h6 : tok = "--eraser-before-lang-adapt"
            · rw [if_pos h6] at h
              obtain ⟨hl2, ha2⟩ := stepFlag_eq h
              subst ha2; subst hl2
              exact ⟨Or.inl rfl, Or.inl rfl, fun hx => hx, fun _ => rfl, fun hc => absurd hc h1,
                memfacts_id.1, memfacts_id.2⟩
            · rw [if_neg h6] at h
              by_cases h7 : tok = "--ckpt-path"
              · rw [if_pos h7] at h
                obtain ⟨v, hrest, hvopt, ha2⟩ := stepValue_eq h
                subst ha2; subst hrest
                exact ⟨Or.inl rfl, Or.inl rfl, fun hx => hx, fun _ => rfl, fun hc => absurd hc h1,
                  (memfacts_cons hvopt).1, (memfacts_cons hvopt).2⟩
              · rw [if_neg h7] at h
                by_cases h8 : tok = "--intrasentence-data-path"
                · rw [if_pos h8] at h
                  obtain ⟨v, hrest, hvopt, ha2⟩ := stepValue_eq h
                  subst ha2; subst hrest
                  exact ⟨Or.inl rfl, Or.inl rfl, fun hx => hx, fun _ => rfl, fun hc => absurd hc h1,
                    (memfacts_cons hvopt).1, (memfacts_cons hvopt).2⟩
                · rw [if_neg h8] at h
                  by_cases h9 : tok = "--intersentence-data-path"
                  · rw [if_pos h9] at h
                    obtain ⟨v, hrest, hvopt, ha2⟩ := stepValue_eq h
                    subst ha2; subst hrest
                    exact ⟨Or.inl rfl, Or.inl rfl, fun hx => hx, fun _ => rfl, fun hc => absurd hc h1,
                      (memfacts_cons hvopt).1, (memfacts_cons hvopt).2⟩
                  · rw [if_neg h9] at h
                    by_cases h10 : tok = "--batch-size"
                    · rw [if_pos h10] at h
                      obtain ⟨v, hrest, hvopt, ha2⟩ := stepValue_eq h
                      subst ha2; subst hrest
                      exact ⟨Or.inl rfl, Or.inl rfl, fun hx => hx, fun _ => rfl, fun hc => absurd hc h1,
                        (memfacts_cons hvopt).1, (memfacts_cons hvopt).2⟩
                    · rw [if_neg h10] at h
                      by_cases h11 : tok = "--tiny-eval-frac"
                      · rw [if_pos h11] at h
                        obtain ⟨hA, hL⟩ := stepTinyEvalFrac_eq h
                        have hfields : a2.intrasentence_model = a.intrasentence_model ∧
                            a2.intersentence_model = a.intersentence_model ∧
                            a2.skip_intersentence = a.skip_intersentence ∧
                            a2.eraser_path_list = a.eraser_path_list := by
                          rcases hA with rfl | ⟨v, rfl⟩ <;> exact ⟨rfl, rfl, rfl, rfl⟩
                        refine ⟨Or.inl hfields.1, Or.inl hfields.2.1, fun hx => hfields.2.2.1.trans hx,
                          fun _ => hfields.2.2.2, fun hc => absurd hc h1, ?_, ?_⟩
                        · rcases hL with rfl | ⟨v, hrest, hvopt⟩
                          · exact memfacts_id.1
                          · subst hrest
                            exact (memfacts_cons hvopt).1
                        · rcases hL with rfl | ⟨v, hrest, hvopt⟩
                          · exact memfacts_id.2
                          · subst hrest
                            exact (memfacts_cons hvopt).2
                      · rw [if_neg h11] at h
                        by_cases h12 : tok = "--softmax-temperature"
                        · rw [if_pos h12] at h
                          obtain ⟨v, hrest, hvopt, ha2⟩ := stepValue_eq h
                          subst ha2; subst hrest
                          exact ⟨Or.inl rfl, Or.inl rfl, fun hx => hx, fun _ => rfl, fun hc => absurd hc h1,
                            (memfacts_cons hvopt).1, (memfacts_cons hvopt).2⟩
                        · rw [if_neg h12] at h
                          by_cases h13 : tok = "--output-dir"
                          · rw [if_pos h13] at h
                            obtain ⟨v, hrest, hvopt, ha2⟩ := stepValue_eq h
                            subst ha2; subst hrest
                            exact ⟨Or.inl rfl, Or.inl rfl, fun hx => hx, fun _ => rfl, fun hc => absurd hc h1,
                              (memfacts_cons hvopt).1, (memfacts_cons hvopt).2⟩
                          · rw [if_neg h13] at h
                            by_cases h14 : tok = "--logging-dir"
                            · rw [if_pos h14] at h
                              obtain ⟨v, hrest, hvopt, ha2⟩ := stepValue_eq h
                              subst ha2; subst hrest
                              exact ⟨Or.inl rfl, Or.inl rfl, fun hx => hx, fun _ => rfl, fun hc => absurd hc h1,
                                (memfacts_cons hvopt).1, (memfacts_cons hvopt).2⟩
                            · rw [if_neg h14] at h
                              by_cases h15 : tok = "--skip-intrasentence"
                              · rw [if_pos h15] at h
                                obtain ⟨hl2, ha2⟩ := stepFlag_eq h
                                subst ha2; subst hl2
                                exact ⟨Or.inl rfl, Or.inl rfl, fun hx => hx, fun _ => rfl, fun hc => absurd hc h1,
                                  memfacts_id.1, memfacts_id.2⟩
                              · rw [if_neg h15] at h
                                by_cases h16 : tok = "--skip-intersentence"
                                · rw [if_pos h16] at h
                                  obtain ⟨hl2, ha2⟩ := stepFlag_eq h
                                  subst ha2; subst hl2
                                  exact ⟨Or.inl rfl, Or.inl rfl, fun _ => rfl, fun _ => rfl, fun hc => absurd hc h1,
                                    memfacts_id.1, memfacts_id.2⟩
                                · rw [if_neg h16] at h
                                  by_cases h17 : tok = "--experiment-id"
                                  · rw [if_pos h17] at h
                                    obtain ⟨v, hrest, hvopt, ha2⟩ := stepValue_eq h
                                    subst ha2; subst hrest
                                    exact ⟨Or.inl rfl, Or.inl rfl, fun hx => hx, fun _ => rfl, fun hc => absurd hc h1,
                                      (memfacts_cons hvopt).1, (memfacts_cons hvopt).2⟩
                                  · rw [if_neg h17] at h
                                    exact Option.noConfusion h

theorem parseArgsFrom_facts :
    ∀ (fuel : ℕ) (l : List String) (a0 a : InfArgs),
    parseArgsFrom fuel l a0 = some a →
    (a0.intrasentence_model ∈ mlmChoices → a.intrasentence_model ∈ mlmChoices) ∧
    (a0.intersentence_model ∈ nspChoices → a.intersentence_model ∈ nspChoices) ∧
    (a0.skip_intersentence = true → a.skip_intersentence = true) ∧
    ("--eraser-path-list" ∉ l → a.eraser_path_list = a0.eraser_path_list) ∧
    (("--eraser-path-list" ∈ l ∨ ∃ x xs, a0.eraser_path_list = some (x :: xs)) →
      ∃ x xs, a.eraser_path_list = some (x :: xs)) := by
  intro fuel
  induction fuel with
  | zero =>
    intro l a0 a h
    exact Option.noConfusion h
  | succ n ih =>
    intro l a0 a h
    cases l with
    | nil =>
      rw [parseArgsFrom] at h
      obtain rfl : a0 = a := Option.some.inj h
      refine ⟨fun hx => hx, fun hx => hx, fun hx => hx, fun _ => rfl, fun hor => ?_⟩
      rcases hor with hin | hex
      · exact absurd hin (List.not_mem_nil _)
      · exact hex
    | cons tok rest =>
      rw [parseArgsFrom] at h
      cases hps : parseStep (tok :: rest) a0 with
      | none =>
        rw [hps] at h
        exact Option.noConfusion h
      | some p =>
        rw [hps] at h
        obtain ⟨f1, f2, f3, f4, f5, f6, f7⟩ := parseStep_facts hps
        obtain ⟨g1, g2, g3, g4, g5⟩ := ih p.1 p.2 a h
        refine ⟨?_, ?_, ?_, ?_, ?_⟩
        · intro h0
          rcases f1 with hEq | hMem
          · exact g1 (by rw [hEq]; exact h0)
          · exact g1 hMem
        · intro h0
          rcases f2 with hEq | hMem
          · exact g2 (by rw [hEq]; exact h0)
          · exact g2 hMem
        · intro h0
          exact g3 (f3 h0)
        · intro hnin
          have htokne : tok ≠ "--eraser-path-list" :=
            fun hc => hnin (hc ▸ List.mem_cons_self tok rest)
          have hnin2 : "--eraser-path-list" ∉ p.1 :=
            fun hc => hnin (List.mem_cons_of_mem _ (f7 _ hc))
          rw [g4 hnin2, f4 htokne]
        · intro hor
          apply g5
          rcases hor with hin | hex
          · rcases List.mem_cons.mp hin with hEq | hm
            · exact Or.inr (f5 hEq.symm)
            · exact Or.inl (f6 _ (by decide) hm)
          · by_cases htok : tok = "--eraser-path-list"
            · exact Or.inr (f5 htok)
            · refine Or.inr ?_
              rw [f4 htok]
              exact hex

/-- The fields of `parse_args()`'s result every successful parse satisfies. -/
theorem parseArgs_facts {argv : List String} {a : InfArgs}
    (h : parseArgs argv = some a) :
    a.intrasentence_model ∈ mlmChoices ∧
    a.intersentence_model ∈ nspChoices ∧
    a.skip_intersentence = true ∧
    ("--eraser-path-list" ∉ argv → a.eraser_path_list = none) ∧
    ("--eraser-path-list" ∈ argv → ∃ x xs, a.eraser_path_list = some (x :: xs)) := by
  obtain ⟨g1, g2, g3, g4, g5⟩ := parseArgsFrom_facts (argv.length + 1) argv defaultArgs a h
  exact ⟨g1 (by decide), g2 (by decide), g3 rfl, fun hnin => g4 hnin,
    fun hin => g5 (Or.inl hin)⟩

/-- Every model-instantiation event of `main` carries the resolved eraser
path list and one of the two parsed architecture names. -/
theorem getattrModel_mem {a : InfArgs} {r s n c lg : String}
    {ep : Option (List String)} {eb : Bool}
    (h : Ev.getattrModel n c lg ep eb ∈ (mainEvents a r s).1) :
    ep = resolvedEraserPaths a ∧
    (n = a.intrasentence_model ∨ n = a.intersentence_model) := by
  cases h1 : a.skip_intrasentence <;> cases h2 : a.skip_intersentence <;>
    simp only [mainEvents, h1, h2, Bool.not_true, Bool.not_false, if_true, if_false,
      Bool.false_eq_true, Bool.true_eq_false, List.append_nil, List.nil_append,
      List.mem_append, List.mem_cons, List.not_mem_nil, List.mem_singleton, or_false,
      false_or, Ev.getattrModel.injEq, reduceCtorEq] at h
  · rcases h with h | h
    · exact ⟨h.2.2.2.1, Or.inl h.1⟩
    · exact ⟨h.2.2.2.1, Or.inr h.1⟩
  · exact ⟨h.2.2.2.1, Or.inl h.1⟩
  · exact ⟨h.2.2.2.1, Or.inr h.1⟩

theorem runIntersentence_not_mem {a : InfArgs} {r s : String}
    (h2 : a.skip_intersentence = true) :
    Ev.runIntersentence ∉ (mainEvents a r s).1 := by
  cases h1 : a.skip_intrasentence <;>
    simp [mainEvents, h1, h2]

end Inference

/-! ### The claims about the driver (`inference.py`) -/

open Inference in
/-- C4 (the code violates the claim): there is NO parsed argument vector under
which intersentence inference runs.  `--skip-intersentence` is declared with
`action="store_true"` and `default=True`, so `args.skip_intersentence` is
`true` for every argv — already for the empty one — and `main` never invokes
the `IntersentenceInferenceRunner`. -/
theorem claim_C4_always_skips_intersentence :
    ((parseArgs []).map InfArgs.skip_intersentence = some true) ∧
    (∀ argv a, parseArgs argv = some a → a.skip_intersentence = true) ∧
    (∀ a r s, a.skip_intersentence = true →
      Ev.runIntersentence ∉ (mainEvents a r s).1) := by
  refine ⟨rfl, ?_, ?_⟩
  · intro argv a h
    exact (parseArgs_facts h).2.2.1
  · intro a r s h2
    exact runIntersentence_not_mem h2

open Inference in
/-- C5: whenever intrasentence inference is not skipped, `main` instantiates
the selected pretrained-model wrapper, runs the intrasentence runner, writes
the runner's results as the intrasentence JSON file in the output directory,
and stores the same results under the key `"intrasentence"` of the
combined-results JSON file it writes at the end (no error is raised). -/
theorem claim_C5 (a : InfArgs) (r s : String) (h : a.skip_intrasentence = false) :
    (mainEvents a r s).2 = none ∧
    Ev.getattrModel a.intrasentence_model (orStr a.ckpt_path a.pretrained_model_name)
        (langOf (dataPathIntra a)) (resolvedEraserPaths a) a.eraser_before_lang_adapt
      ∈ (mainEvents a r s).1 ∧
    Ev.runIntrasentence ∈ (mainEvents a r s).1 ∧
    Ev.writeFile (intraOutPath a (langOf (dataPathIntra a))) (JsonOut.result r)
      ∈ (mainEvents a r s).1 ∧
    ∃ lg entries, Ev.writeFile (combinedOutPath a lg) (JsonOut.combined entries)
      ∈ (mainEvents a r s).1 ∧ ("intrasentence", r) ∈ entries := by
  cases h2 : a.skip_intersentence
  · refine ⟨?_, ?_, ?_, ?_,
      ⟨langOf (dataPathInter a), [("intrasentence", r), ("intersentence", s)], ?_, ?_⟩⟩ <;>
      simp [mainEvents, h, h2]
  · refine ⟨?_, ?_, ?_, ?_,
      ⟨langOf (dataPathIntra a), [("intrasentence", r)], ?_, ?_⟩⟩ <;>
      simp [mainEvents, h, h2]

open Inference in
/-- Witness for C5: the parser's default namespace (intrasentence inference is
not skipped by default). -/
theorem claim_C5_witness :
    (mainEvents defaultArgs "R" "S").2 = none ∧
    Ev.getattrModel defaultArgs.intrasentence_model
        (orStr defaultArgs.ckpt_path defaultArgs.pretrained_model_name)
        (langOf (dataPathIntra defaultArgs)) (resolvedEraserPaths defaultArgs)
        defaultArgs.eraser_before_lang_adapt
      ∈ (mainEvents defaultArgs "R" "S").1 ∧
    Ev.runIntrasentence ∈ (mainEvents defaultArgs "R" "S").1 ∧
    Ev.writeFile (intraOutPath defaultArgs (langOf (dataPathIntra defaultArgs)))
        (JsonOut.result "R")
      ∈ (mainEvents defaultArgs "R" "S").1 ∧
    ∃ lg entries,
      Ev.writeFile (combinedOutPath defaultArgs lg) (JsonOut.combined entries)
        ∈ (mainEvents defaultArgs "R" "S").1 ∧ ("intrasentence", "R") ∈ entries :=
  claim_C5 defaultArgs "R" "S" rfl

open Inference in
/-- C6: `main` selects the model class by `getattr` on the parsed architecture
name, and the parser restricts that name to `BertForMLM`/`SwissBertForMLM`
(intrasentence) and `BertForNSP`/`SwissBertForNSP` (intersentence), so the
dispatch never receives a name outside those sets. -/
theorem claim_C6 (argv : List String) (a : InfArgs) (h : parseArgs argv = some a) :
    a.intrasentence_model ∈ mlmChoices ∧
    a.intersentence_model ∈ nspChoices ∧
    (∀ r s n c lg ep eb, Ev.getattrModel n c lg ep eb ∈ (mainEvents a r s).1 →
      (n = a.intrasentence_model ∧ n ∈ mlmChoices) ∨
      (n = a.intersentence_model ∧ n ∈ nspChoices)) := by
  obtain ⟨g1, g2, _, _, _⟩ := parseArgs_facts h
  refine ⟨g1, g2, ?_⟩
  intro r s n c lg ep eb hmem
  rcases (getattrModel_mem hmem).2 with hn | hn
  · exact Or.inl ⟨hn, hn ▸ g1⟩
  · exact Or.inr ⟨hn, hn ▸ g2⟩

open Inference in
/-- Witness for C6: the empty argv (all defaults). -/
theorem claim_C6_witness :
    defaultArgs.intrasentence_model ∈ mlmChoices ∧
    defaultArgs.intersentence_model ∈ nspChoices ∧
    (∀ r s n c lg ep eb,
      Ev.getattrModel n c lg ep eb ∈ (mainEvents defaultArgs r s).1 →
      (n = defaultArgs.intrasentence_model ∧ n ∈ mlmChoices) ∨
      (n = defaultArgs.intersentence_model ∧ n ∈ nspChoices)) :=
  claim_C6 [] defaultArgs rfl

open Inference in
/-- C7: concept-eraser debiasing is optional.  When `--eraser-path-list` is
absent the parsed list is `None` and the model wrappers are constructed with
no eraser paths; when the option is given with no values the parser records
the sentinel `['default_path']` and the driver substitutes the single default
path `<top_level_dir>/data/concept_eraser/eraser_models/eraser.pkl`; and the
output JSON filenames carry the `"_eraser"` tag exactly when an eraser path
list was supplied on the command line. -/
theorem claim_C7 (argv : List String) (a : InfArgs) (r s : String)
    (h : parseArgs argv = some a) :
    ("--eraser-path-list" ∉ argv →
      a.eraser_path_list = none ∧
      ∀ n c lg ep eb, Ev.getattrModel n c lg ep eb ∈ (mainEvents a r s).1 →
        ep = none) ∧
    (a.eraser_path_list = some ["default_path"] →
      ∀ n c lg ep eb, Ev.getattrModel n c lg ep eb ∈ (mainEvents a r s).1 →
        ep = some [a.top_level_dir ++ "/data/concept_eraser/eraser_models/eraser.pkl"]) ∧
    (∀ rest, argv = "--eraser-path-list" :: rest → (splitValues rest).1 = [] →
      "--eraser-path-list" ∉ (splitValues rest).2 →
      a.eraser_path_list = some ["default_path"]) ∧
    ("--eraser-path-list" ∈ argv ↔ eraserTag a = "_eraser") := by
  obtain ⟨_, _, _, g4, g5⟩ := parseArgs_facts h
  refine ⟨?_, ?_, ?_, ?_, ?_⟩
  · intro hnin
    have hnone : a.eraser_path_list = none := g4 hnin
    refine ⟨hnone, ?_⟩
    intro n c lg ep eb hmem
    rw [(getattrModel_mem hmem).1, resolvedEraserPaths, hnone]
    simp
  · intro hdef n c lg ep eb hmem
    rw [(getattrModel_mem hmem).1, resolvedEraserPaths, hdef]
    simp
  · intro rest hargv hempty hnin2
    subst hargv
    rw [parseArgs, parseArgsFrom] at h
    rw [show parseStep ("--eraser-path-list" :: rest) defaultArgs =
        some ((splitValues rest).2,
          {defaultArgs with eraser_path_list := some (eraserConst (splitValues rest).1)})
      from by rw [parseStep.eq_2, if_pos rfl]; rfl] at h
    have := (parseArgsFrom_facts _ _ _ _ h).2.2.2.1 hnin2
    rw [this]
    show some (eraserConst (splitValues rest).1) = some ["default_path"]
    rw [hempty]
    rfl
  · intro hin
    obtain ⟨x, xs, hxx⟩ := g5 hin
    rw [eraserTag, truthyList.eq_def, hxx]
    simp
  · intro htag
    by_contra hnin
    have hnone : a.eraser_path_list = none := g4 hnin
    rw [eraserTag, truthyList.eq_def, hnone] at htag
    simp at htag

open Inference in
/-- Witness for C7: the argv `["--eraser-path-list"]` — the option given with
no values. -/
theorem claim_C7_witness :
    (("--eraser-path-list" : String)
        ∉ (["--eraser-path-list"] : List String) →
      ({defaultArgs with eraser_path_list := some ["default_path"]} :
          InfArgs).eraser_path_list = none ∧
      ∀ n c lg ep eb, Ev.getattrModel n c lg ep eb
          ∈ (mainEvents {defaultArgs with eraser_path_list := some ["default_path"]}
              "R" "S").1 → ep = none) ∧
    (({defaultArgs with eraser_path_list := some ["default_path"]} :
        InfArgs).eraser_path_list = some ["default_path"] →
      ∀ n c lg ep eb, Ev.getattrModel n c lg ep eb
          ∈ (mainEvents {defaultArgs with eraser_path_list := some ["default_path"]}
              "R" "S").1 →
        ep = some [({defaultArgs with eraser_path_list := some ["default_path"]} :
            InfArgs).top_level_dir
          ++ "/data/concept_eraser/eraser_models/eraser.pkl"]) ∧
    (∀ rest, (["--eraser-path-list"] : List String) = "--eraser-path-list" :: rest →
      (splitValues rest).1 = [] →
      "--eraser-path-list" ∉ (splitValues rest).2 →
      ({defaultArgs with eraser_path_list := some ["default_path"]} :
          InfArgs).eraser_path_list = some ["default_path"]) ∧
    (("--eraser-path-list" : String) ∈ (["--eraser-path-list"] : List String) ↔
      eraserTag {defaultArgs with eraser_path_list := some ["default_path"]}
        = "_eraser") :=
  claim_C7 ["--eraser-path-list"]
    {defaultArgs with eraser_path_list := some ["default_path"]} "R" "S" rfl

open Inference in
/-- C8: when both branches are skipped (intrasentence by its flag,
intersentence by its always-true default) the local variable `lang` is never
assigned, so `main` raises an unbound-variable `NameError` while building the
combined-results filename: the only effect is the `os.makedirs` call, and in
particular no combined-results JSON file is written. -/
theorem claim_C8 (a : InfArgs) (r s : String)
    (h1 : a.skip_intrasentence = true) (h2 : a.skip_intersentence = true) :
    mainEvents a r s = ([Ev.makedirs (outputDir a)], some (PyErr.nameError "lang")) := by
  simp [mainEvents, h1, h2]

open Inference in
/-- Witness for C8: the default namespace with `--skip-intrasentence` set. -/
theorem claim_C8_witness :
    mainEvents {defaultArgs with skip_intrasentence := true} "R" "S"
      = ([Ev.makedirs (outputDir {defaultArgs with skip_intrasentence := true})],
          some (PyErr.nameError "lang")) :=
  claim_C8 {defaultArgs with skip_intrasentence := true} "R" "S" rfl rfl

end Spec2Proof
